import Mathlib

/-!
Verification of the hook-governed, bounded step-pipeline execution engine of
the hammer repository (spec sections 3, 4.2, 4.3, 6, 7).

The engine itself (the repository's `hammer_tool` module: `HammerTool.run_steps`
and the `make_*_hook` constructors) is not among the provided source files;
only its tests (`test.py`, class `HammerToolHooksTest`) and its callers
(`hammer_vlsi_impl.py`) are.  The definitions below therefore embed the
engine as the specification describes it, and the theorems check the frozen
claims against that model.
-/

namespace Hammer

/-- Modelled from the spec: tagged outcome of one step action (spec section 4.3
and the design note in section 9 replacing `HammerToolPauseException`, which is
declared in the missing `hammer_tool` module): a step either continues, fails,
or voluntarily requests a pause. -/
inductive StepResult : Type
  | Continue : StepResult
  | Fail : StepResult
  | PauseRequested : StepResult
deriving DecidableEq

/-- Modelled from the spec: section 3 `Step`, a `(name, action)` pair.  The
action consumes a context and produces a tagged result together with the
updated context (the settings store a step may mutate). -/
structure Step (Ctx : Type) where
  name : String
  action : Ctx → StepResult × Ctx

/-- Modelled from the spec: section 3 `HookRequest`, the tagged variant of
runtime modification requests (the `make_*_hook` constructors of the missing
`hammer_tool` module). -/
inductive HookRequest (Ctx : Type) : Type
  | Remove : String → HookRequest Ctx
  | InsertBefore : String → Step Ctx → HookRequest Ctx
  | InsertAfter : String → Step Ctx → HookRequest Ctx
  | Replace : String → Step Ctx → HookRequest Ctx
  | ResumeBefore : String → HookRequest Ctx
  | ResumeAfter : String → HookRequest Ctx
  | PauseBefore : String → HookRequest Ctx
  | PauseAfter : String → HookRequest Ctx

/-- Modelled from the spec: section 7 error taxonomy of the resolver. -/
inductive HookError : Type
  | StepNotFound : String → HookError
  | DuplicateStepName : String → HookError
  | ConflictingResumeHook : HookError
  | ConflictingPauseHook : HookError
  | EmptyRunRange : HookError
deriving DecidableEq

/-- A recorded run bound: the anchor name together with the inclusivity
(`before` the anchor versus `after` it), spec section 4.2 steps 2 and 4. -/
inductive Bound : Type
  | before : String → Bound
  | after : String → Bound

/-- Modelled from the spec: section 3 `RunResult`. -/
structure RunResult : Type where
  success : Bool
  failingStep : Option String
  pausedAt : Option String
deriving DecidableEq

/-- State of the resolver while hooks are applied left to right
(spec section 4.2 step 1). -/
structure ResolveState (Ctx : Type) where
  working : List (Step Ctx)
  startB : Option Bound
  stopB : Option Bound
  resumeSeen : Bool
  pauseSeen : Bool

/-- Modelled from the spec: section 4.1 `indexOf(name)` on a StepList. -/
def indexOfName {Ctx : Type} (m : String) : List (Step Ctx) → Option Nat
  | [] => none
  | s :: rest => if s.name = m then some 0 else (indexOfName m rest).map (· + 1)

/-- Whether a step of the given name is present in the list. -/
def containsName {Ctx : Type} (m : String) (l : List (Step Ctx)) : Bool :=
  l.any (fun s => s.name == m)

/-- Modelled from the spec: section 4.2 step 1, the initial resolver state.
The carried start name means "resume before it" and the carried stop name
means "pause after it" (the `fromTo` convention of section 6); the
`resumeSeen`/`pauseSeen` flags start false even when carried defaults exist. -/
def initState {Ctx : Type} (base : List (Step Ctx)) (cs ss : Option String) :
    ResolveState Ctx :=
  ⟨base, cs.map Bound.before, ss.map Bound.after, false, false⟩

/-- Modelled from the spec: section 4.2 step 2, application of one hook request
to the mutable working state.  Structural hooks check their anchor/target
against the current working list; bound hooks only record the anchor (it is
validated in step 3) and enforce the at-most-one rule per invocation. -/
def applyHook {Ctx : Type} (st : ResolveState Ctx) :
    HookRequest Ctx → Except HookError (ResolveState Ctx)
  | .Remove t =>
    match indexOfName t st.working with
    | none => .error (.StepNotFound t)
    | some i => .ok { st with working := st.working.take i ++ st.working.drop (i + 1) }
  | .InsertBefore a s =>
    match indexOfName a st.working with
    | none => .error (.StepNotFound a)
    | some i =>
      if containsName s.name st.working then .error (.DuplicateStepName s.name)
      else .ok { st with working := st.working.take i ++ s :: st.working.drop i }
  | .InsertAfter a s =>
    match indexOfName a st.working with
    | none => .error (.StepNotFound a)
    | some i =>
      if containsName s.name st.working then .error (.DuplicateStepName s.name)
      else .ok { st with working := st.working.take (i + 1) ++ s :: st.working.drop (i + 1) }
  | .Replace t s =>
    match indexOfName t st.working with
    | none => .error (.StepNotFound t)
    | some i =>
      if s.name != t && containsName s.name st.working then
        .error (.DuplicateStepName s.name)
      else .ok { st with working := st.working.take i ++ s :: st.working.drop (i + 1) }
  | .ResumeBefore a =>
    if st.resumeSeen then .error .ConflictingResumeHook
    else .ok { st with startB := some (.before a), resumeSeen := true }
  | .ResumeAfter a =>
    if st.resumeSeen then .error .ConflictingResumeHook
    else .ok { st with startB := some (.after a), resumeSeen := true }
  | .PauseBefore a =>
    if st.pauseSeen then .error .ConflictingPauseHook
    else .ok { st with stopB := some (.before a), pauseSeen := true }
  | .PauseAfter a =>
    if st.pauseSeen then .error .ConflictingPauseHook
    else .ok { st with stopB := some (.after a), pauseSeen := true }

/-- Left-to-right application of a hook list (spec section 4.2 step 2). -/
def applyHooks {Ctx : Type} (st : ResolveState Ctx) :
    List (HookRequest Ctx) → Except HookError (ResolveState Ctx)
  | [] => .ok st
  | h :: rest =>
    match applyHook st h with
    | .error e => .error e
    | .ok st2 => applyHooks st2 rest

/-- Modelled from the spec: section 4.2 steps 3 and 4, start bound.  Validates
that the recorded anchor still exists, then computes the start index
(inclusive anchor for `before`, one past it for `after`, 0 when absent). -/
def computeStart {Ctx : Type} (w : List (Step Ctx)) : Option Bound → Except HookError Int
  | none => .ok 0
  | some (.before a) =>
    match indexOfName a w with
    | none => .error (.StepNotFound a)
    | some i => .ok (i : Int)
  | some (.after a) =>
    match indexOfName a w with
    | none => .error (.StepNotFound a)
    | some i => .ok ((i : Int) + 1)

/-- Modelled from the spec: section 4.2 steps 3 and 4, stop bound.  `before`
stops one short of the anchor, `after` includes it, and the default is
`len(working) - 1` (which is `-1` on an empty working list). -/
def computeStop {Ctx : Type} (w : List (Step Ctx)) : Option Bound → Except HookError Int
  | none => .ok ((w.length : Int) - 1)
  | some (.before a) =>
    match indexOfName a w with
    | none => .error (.StepNotFound a)
    | some i => .ok ((i : Int) - 1)
  | some (.after a) =>
    match indexOfName a w with
    | none => .error (.StepNotFound a)
    | some i => .ok (i : Int)

/-- Modelled from the spec: section 4.2 `HookResolver.resolve`: apply all hooks
in order, validate and compute the bounds, and fail with `EmptyRunRange` when
the start bound lands strictly after the stop bound (step 5). -/
def resolve {Ctx : Type} (base : List (Step Ctx)) (hooks : List (HookRequest Ctx))
    (cs ss : Option String) : Except HookError (List (Step Ctx) × Int × Int) :=
  match applyHooks (initState base cs ss) hooks with
  | .error e => .error e
  | .ok st =>
    match computeStart st.working st.startB with
    | .error e => .error e
    | .ok startI =>
      match computeStop st.working st.stopB with
      | .error e => .error e
      | .ok stopI =>
        if startI > stopI then .error .EmptyRunRange
        else .ok (st.working, startI, stopI)

/-- Modelled from the spec: section 4.3 executor loop over a contiguous slice:
invoke each action in turn, stop hard on `Fail` (recording the failing step),
stop on a voluntary `PauseRequested` (recording `pausedAt`), otherwise
continue.  Besides the `RunResult` it returns the names of the steps whose
action was actually invoked, in invocation order, and the final context. -/
def runSlice {Ctx : Type} (ctx : Ctx) :
    List (Step Ctx) → RunResult × List String × Ctx
  | [] => (⟨true, none, none⟩, [], ctx)
  | s :: rest =>
    match s.action ctx with
    | (.Fail, ctx2) => (⟨false, some s.name, none⟩, [s.name], ctx2)
    | (.PauseRequested, ctx2) => (⟨true, none, some s.name⟩, [s.name], ctx2)
    | (.Continue, ctx2) =>
      let r := runSlice ctx2 rest
      (r.1, s.name :: r.2.1, r.2.2)

/-- Modelled from the spec: section 4.3 `execute` — run indices `startI` to
`stopI` inclusive of the resolved list, i.e. the slice obtained by dropping
`startI` steps and keeping `stopI - startI + 1` of the rest. -/
def execute {Ctx : Type} (resolved : List (Step Ctx)) (startI stopI : Int)
    (ctx : Ctx) : RunResult × List String × Ctx :=
  runSlice ctx ((resolved.drop startI.toNat).take (stopI + 1 - startI).toNat)

/-- Modelled from the spec: section 6 run entry point: resolve, then execute
within the computed bounds.  Resolution errors are returned without invoking
any step action. -/
def run {Ctx : Type} (base : List (Step Ctx)) (hooks : List (HookRequest Ctx))
    (cs ss : Option String) (ctx : Ctx) :
    Except HookError (RunResult × List String × Ctx) :=
  match resolve base hooks cs ss with
  | .error e => .error e
  | .ok (w, startI, stopI) => .ok (execute w startI stopI ctx)

/-- The `RunResult` reported to the caller: resolution-time errors are
surfaced synchronously as `success = false` (spec section 7 propagation
policy), never thrown across the execute boundary. -/
def runResult {Ctx : Type} (base : List (Step Ctx)) (hooks : List (HookRequest Ctx))
    (cs ss : Option String) (ctx : Ctx) : RunResult :=
  match run base hooks cs ss ctx with
  | .error _ => ⟨false, none, none⟩
  | .ok (r, _, _) => r

/-- The names of the step actions actually invoked by a run, in order; empty
when resolution fails (no side effects attributable to the run). -/
def runTrace {Ctx : Type} (base : List (Step Ctx)) (hooks : List (HookRequest Ctx))
    (cs ss : Option String) (ctx : Ctx) : List String :=
  match run base hooks cs ss ctx with
  | .error _ => []
  | .ok (_, tr, _) => tr

/-- Whether a hook request is a Pause-type request. -/
def isPauseHook {Ctx : Type} : HookRequest Ctx → Bool
  | .PauseBefore _ => true
  | .PauseAfter _ => true
  | _ => false

/-- Whether a hook request is a Resume-type or Pause-type (bound) request. -/
def isBoundHook {Ctx : Type} : HookRequest Ctx → Bool
  | .ResumeBefore _ => true
  | .ResumeAfter _ => true
  | .PauseBefore _ => true
  | .PauseAfter _ => true
  | _ => false

/-- The name a structural hook checks against the working list at the moment
it is applied (spec section 4.2 step 2): the removal/replacement target or the
insertion anchor.  Bound hooks validate their anchor later, in step 3. -/
def structuralRef {Ctx : Type} : HookRequest Ctx → Option String
  | .Remove t => some t
  | .InsertBefore a _ => some a
  | .InsertAfter a _ => some a
  | .Replace t _ => some t
  | _ => none

/-- Modelled from the spec: a Python callable carries its function name
(`__name__`); the insertion-hook constructors of the missing `hammer_tool`
module derive the inserted step's name from it. -/
structure Callable (Ctx : Type) where
  funcName : String
  call : Ctx → StepResult × Ctx

/-- Modelled from the spec: section 6 construction helper
`make_pre_insertion_hook(anchor, func)` of the missing `hammer_tool` module:
insert, before the anchor, a step named after the callable's function name
(as exercised by `test_insertion_hooks`, where the callable `change3` yields
a step addressable as "change3"). -/
def make_pre_insertion_hook {Ctx : Type} (anchor : String) (func : Callable Ctx) :
    HookRequest Ctx :=
  .InsertBefore anchor ⟨func.funcName, func.call⟩

/-- Modelled from the spec: section 6 construction helper
`make_post_insertion_hook(anchor, func)`: insert after the anchor a step
named after the callable's function name. -/
def make_post_insertion_hook {Ctx : Type} (anchor : String) (func : Callable Ctx) :
    HookRequest Ctx :=
  .InsertAfter anchor ⟨func.funcName, func.call⟩

/-- Every action of the list returns `Continue` on every context: the regime
of the hook tests, whose mock synthesis steps always report success. -/
def AlwaysContinue {Ctx : Type} (l : List (Step Ctx)) : Prop :=
  ∀ s ∈ l, ∀ c, (s.action c).1 = StepResult.Continue

/-- Every action returns `Continue` along the actual threading of the context
through the list, starting from `ctx`. -/
def allContinue {Ctx : Type} (ctx : Ctx) : List (Step Ctx) → Bool
  | [] => true
  | s :: rest =>
    match s.action ctx with
    | (.Continue, ctx2) => allContinue ctx2 rest
    | _ => false

/-! ### Concrete instances used by witnesses and counterexamples -/

/-- A step that always continues and leaves the (trivial) context unchanged,
like the always-succeeding mocksynth steps of the hook tests. -/
def contStep (nm : String) : Step Unit := ⟨nm, fun c => (StepResult.Continue, c)⟩

/-- A base step list of always-continuing steps with the given names. -/
def mkBase (l : List String) : List (Step Unit) := l.map contStep

/-- A three-step base list, as in the mocksynth scenarios. -/
def base3 : List (Step Unit) := mkBase ["step1", "step2", "step3"]

/-- The four-step base list of the mocksynth hook tests. -/
def base4 : List (Step Unit) := mkBase ["step1", "step2", "step3", "step4"]

/-- The conflicting hook list of `test_extra_pause_hooks`. -/
def pauseHooks : List (HookRequest Unit) :=
  [.PauseBefore "step3", .PauseAfter "step3"]

/-- A callable with the given function name that always continues. -/
def contCall (nm : String) : Callable Unit := ⟨nm, fun c => (StepResult.Continue, c)⟩

/-- The resolver state reached in the `test_resume_pause_hooks_with_custom_steps`
scenario: "step5" inserted after "step4", carried bounds "step5".."step5". -/
def base5work : ResolveState Unit :=
  ⟨mkBase ["step1", "step2", "step3", "step4", "step5"],
    some (.before "step5"), some (.after "step5"), false, false⟩

/-! ### Basic lemmas about the model -/

lemma indexOfName_lt {Ctx : Type} {m : String} {l : List (Step Ctx)} {i : Nat}
    (h : indexOfName m l = some i) : i < l.length := by
  induction l generalizing i with
  | nil => simp [indexOfName] at h
  | cons s rest ih =>
    by_cases hs : s.name = m
    · simp [indexOfName, hs] at h
      simp [← h]
    · simp [indexOfName, hs] at h
      obtain ⟨j, hj, rfl⟩ := h
      have := ih hj
      simp
      omega

lemma indexOfName_decomp {Ctx : Type} {m : String} {l : List (Step Ctx)} {i : Nat}
    (h : indexOfName m l = some i) :
    ∃ u s v, l = u ++ s :: v ∧ u.length = i ∧ s.name = m ∧ ∀ x ∈ u, x.name ≠ m := by
  induction l generalizing i with
  | nil => simp [indexOfName] at h
  | cons s rest ih =>
    by_cases hs : s.name = m
    · simp [indexOfName, hs] at h
      exact ⟨[], s, rest, by simp, by simp [← h], hs, by simp⟩
    · simp [indexOfName, hs] at h
      obtain ⟨j, hj, rfl⟩ := h
      obtain ⟨u, t, v, rfl, hlen, hname, hfresh⟩ := ih hj
      refine ⟨s :: u, t, v, by simp, by simp [hlen], hname, ?_⟩
      intro x hx
      rcases List.mem_cons.1 hx with rfl | hx
      · exact hs
      · exact hfresh x hx

lemma indexOfName_append_cons {Ctx : Type} {m : String} (u : List (Step Ctx))
    (s : Step Ctx) (v : List (Step Ctx)) (hs : s.name = m) (hu : ∀ x ∈ u, x.name ≠ m) :
    indexOfName m (u ++ s :: v) = some u.length := by
  induction u with
  | nil => simp [indexOfName, hs]
  | cons a u ih =>
    have ha : a.name ≠ m := hu a (by simp)
    rw [List.cons_append]
    simp [indexOfName, ha, ih (fun x hx => hu x (by simp [hx]))]

lemma containsName_false_iff {Ctx : Type} (m : String) (l : List (Step Ctx)) :
    containsName m l = false ↔ ∀ x ∈ l, x.name ≠ m := by
  simp [containsName]

lemma indexOfName_eq_none {Ctx : Type} {m : String} {l : List (Step Ctx)}
    (h : ∀ x ∈ l, x.name ≠ m) : indexOfName m l = none := by
  induction l with
  | nil => rfl
  | cons s rest ih =>
    simp [indexOfName, h s (by simp), ih fun x hx => h x (by simp [hx])]

lemma mem_of_take {α : Type} {x : α} {l : List α} {n : Nat} (h : x ∈ l.take n) :
    x ∈ l := by
  rw [← List.take_append_drop n l]
  exact List.mem_append_left _ h

lemma mem_of_drop {α : Type} {x : α} {l : List α} {n : Nat} (h : x ∈ l.drop n) :
    x ∈ l := by
  rw [← List.take_append_drop n l]
  exact List.mem_append_right _ h

lemma alwaysContinue_sub {Ctx : Type} {l1 l2 : List (Step Ctx)}
    (hsub : ∀ s ∈ l2, s ∈ l1) (h : AlwaysContinue l1) : AlwaysContinue l2 :=
  fun s hs c => h s (hsub s hs) c

lemma runSlice_all {Ctx : Type} {ctx : Ctx} {l : List (Step Ctx)}
    (h : allContinue ctx l = true) :
    (runSlice ctx l).1 = ⟨true, none, none⟩ ∧ (runSlice ctx l).2.1 = l.map (·.name) := by
  induction l generalizing ctx with
  | nil => simp [runSlice]
  | cons s rest ih =>
    rcases hact : s.action ctx with ⟨r, ctx2⟩
    cases r with
    | Continue =>
      have h2 : allContinue ctx2 rest = true := by
        have := h
        rw [allContinue, hact] at this
        exact this
      have hr := ih h2
      rw [runSlice, hact]
      simp [hr.1, hr.2]
    | Fail =>
      rw [allContinue, hact] at h
      simp at h
    | PauseRequested =>
      rw [allContinue, hact] at h
      simp at h

lemma allContinue_of_slice {Ctx : Type} {ctx : Ctx} {l : List (Step Ctx)}
    (h1 : (runSlice ctx l).1.success = true) (h2 : (runSlice ctx l).1.pausedAt = none) :
    allContinue ctx l = true := by
  induction l generalizing ctx with
  | nil => rfl
  | cons s rest ih =>
    rcases hact : s.action ctx with ⟨r, ctx2⟩
    cases r with
    | Continue =>
      rw [runSlice, hact] at h1 h2
      rw [allContinue, hact]
      exact ih h1 h2
    | Fail =>
      rw [runSlice, hact] at h1
      simp at h1
    | PauseRequested =>
      rw [runSlice, hact] at h2
      simp at h2

lemma alwaysContinue_allContinue {Ctx : Type} {l : List (Step Ctx)}
    (h : AlwaysContinue l) (ctx : Ctx) : allContinue ctx l = true := by
  induction l generalizing ctx with
  | nil => rfl
  | cons s rest ih =>
    rcases hact : s.action ctx with ⟨r, ctx2⟩
    have hr := h s (by simp) ctx
    rw [hact] at hr
    simp at hr
    subst hr
    rw [allContinue, hact]
    exact ih (fun x hx c => h x (by simp [hx]) c) ctx2

lemma applyHooks_append {Ctx : Type} (st : ResolveState Ctx)
    (l1 l2 : List (HookRequest Ctx)) :
    applyHooks st (l1 ++ l2) =
      match applyHooks st l1 with
      | .error e => .error e
      | .ok st2 => applyHooks st2 l2 := by
  induction l1 generalizing st with
  | nil => simp [applyHooks]
  | cons h t ih =>
    simp only [List.cons_append, applyHooks]
    rcases hah : applyHook st h with e | st2
    · simp [hah]
    · simp [hah, ih]

lemma applyHook_pause_conflict {Ctx : Type} {st : ResolveState Ctx} {h : HookRequest Ctx}
    (hp : isPauseHook h = true) (hs : st.pauseSeen = true) :
    applyHook st h = .error .ConflictingPauseHook := by
  cases h <;> simp [isPauseHook] at hp <;> simp [applyHook, hs]

lemma applyHook_pauseSeen_mono {Ctx : Type} {st st2 : ResolveState Ctx}
    {h : HookRequest Ctx} (hok : applyHook st h = .ok st2) (hs : st.pauseSeen = true) :
    st2.pauseSeen = true := by
  cases h <;> simp only [applyHook, hs] at hok <;>
    (repeat' split at hok) <;> simp_all <;> simp [← hok, hs]

lemma applyHook_pause_sets {Ctx : Type} {st st2 : ResolveState Ctx} {h : HookRequest Ctx}
    (hp : isPauseHook h = true) (hok : applyHook st h = .ok st2) : st2.pauseSeen = true := by
  cases h <;> simp [isPauseHook] at hp <;> simp only [applyHook] at hok <;>
    split at hok <;> simp_all <;> simp [← hok]

lemma applyHook_bounds_preserved {Ctx : Type} {st st2 : ResolveState Ctx}
    {h : HookRequest Ctx} (hb : isBoundHook h = false) (hok : applyHook st h = .ok st2) :
    st2.startB = st.startB ∧ st2.stopB = st.stopB := by
  cases h <;> simp [isBoundHook] at hb <;> simp only [applyHook] at hok <;>
    (repeat' split at hok) <;> simp_all <;> simp [← hok]

lemma applyHooks_pauseSeen_mono {Ctx : Type} {st st2 : ResolveState Ctx}
    {l : List (HookRequest Ctx)} (hok : applyHooks st l = .ok st2)
    (hs : st.pauseSeen = true) : st2.pauseSeen = true := by
  induction l generalizing st with
  | nil =>
    rw [applyHooks] at hok
    cases hok
    exact hs
  | cons h t ih =>
    rw [applyHooks] at hok
    rcases hah : applyHook st h with e | st3 <;> rw [hah] at hok
    · cases hok
    · exact ih hok (applyHook_pauseSeen_mono hah hs)

lemma applyHooks_pauseSeen_of_mem {Ctx : Type} {st st2 : ResolveState Ctx}
    {l : List (HookRequest Ctx)} {q : HookRequest Ctx} (hok : applyHooks st l = .ok st2)
    (hq : q ∈ l) (hp : isPauseHook q = true) : st2.pauseSeen = true := by
  induction l generalizing st with
  | nil => cases hq
  | cons h t ih =>
    rw [applyHooks] at hok
    rcases hah : applyHook st h with e | st3 <;> rw [hah] at hok
    · cases hok
    · rcases List.mem_cons.1 hq with rfl | hq2
      · exact applyHooks_pauseSeen_mono hok (applyHook_pause_sets hp hah)
      · exact ih hok hq2

lemma applyHooks_pause_error {Ctx : Type} {st : ResolveState Ctx}
    {l : List (HookRequest Ctx)} (hs : st.pauseSeen = true)
    (hq : ∃ q ∈ l, isPauseHook q = true) : ∃ e, applyHooks st l = .error e := by
  induction l generalizing st with
  | nil => simp at hq
  | cons h t ih =>
    by_cases hph : isPauseHook h = true
    · refine ⟨.ConflictingPauseHook, ?_⟩
      rw [applyHooks, applyHook_pause_conflict hph hs]
    · obtain ⟨q, hqmem, hqp⟩ := hq
      rcases List.mem_cons.1 hqmem with rfl | hq2
      · exact absurd hqp hph
      · rw [applyHooks]
        rcases hah : applyHook st h with e | st3
        · exact ⟨e, rfl⟩
        · exact ih (applyHook_pauseSeen_mono hah hs) ⟨q, hq2, hqp⟩

lemma two_pause_mem_error {Ctx : Type} {st : ResolveState Ctx}
    {l : List (HookRequest Ctx)} {a b : String}
    (ha : HookRequest.PauseBefore a ∈ l) (hb : HookRequest.PauseAfter b ∈ l) :
    ∃ e, applyHooks st l = .error e := by
  induction l generalizing st with
  | nil => cases ha
  | cons h t ih =>
    rcases List.mem_cons.1 ha with rfl | ha2
    · have hb2 : HookRequest.PauseAfter b ∈ t := by
        rcases List.mem_cons.1 hb with heq | hb2
        · cases heq
        · exact hb2
      rw [applyHooks]
      rcases hah : applyHook st (HookRequest.PauseBefore a) with e | st3
      · exact ⟨e, rfl⟩
      · exact applyHooks_pause_error (applyHook_pause_sets (by simp [isPauseHook]) hah)
          ⟨_, hb2, rfl⟩
    · rcases List.mem_cons.1 hb with rfl | hb2
      · rw [applyHooks]
        rcases hah : applyHook st (HookRequest.PauseAfter b) with e | st3
        · exact ⟨e, rfl⟩
        · exact applyHooks_pause_error (applyHook_pause_sets (by simp [isPauseHook]) hah)
            ⟨_, ha2, rfl⟩
      · rw [applyHooks]
        rcases hah : applyHook st h with e | st3
        · exact ⟨e, rfl⟩
        · exact ih ha2 hb2

lemma applyHooks_bounds_preserved {Ctx : Type} {st st2 : ResolveState Ctx}
    {l : List (HookRequest Ctx)} (hok : applyHooks st l = .ok st2)
    (hnb : ∀ h ∈ l, isBoundHook h = false) :
    st2.startB = st.startB ∧ st2.stopB = st.stopB := by
  induction l generalizing st with
  | nil =>
    rw [applyHooks] at hok
    cases hok
    exact ⟨rfl, rfl⟩
  | cons h t ih =>
    rw [applyHooks] at hok
    rcases hah : applyHook st h with e | st3 <;> rw [hah] at hok
    · cases hok
    · have h1 := applyHook_bounds_preserved (hnb h (by simp)) hah
      have h2 := ih hok (fun x hx => hnb x (by simp [hx]))
      exact ⟨h2.1.trans h1.1, h2.2.trans h1.2⟩

lemma applyHook_structural_absent {Ctx : Type} {st : ResolveState Ctx}
    {h : HookRequest Ctx} {m : String} (hm : structuralRef h = some m)
    (habs : containsName m st.working = false) :
    applyHook st h = .error (.StepNotFound m) := by
  have hidx : indexOfName m st.working = none :=
    indexOfName_eq_none ((containsName_false_iff m st.working).1 habs)
  cases h <;> simp [structuralRef] at hm <;> subst hm <;> simp [applyHook, hidx]

lemma applyHook_insertBefore {Ctx : Type} {st : ResolveState Ctx} {a : String}
    {s : Step Ctx} {i : Nat} (hidx : indexOfName a st.working = some i)
    (hdup : containsName s.name st.working = false) :
    applyHook st (.InsertBefore a s) =
      .ok { st with working := st.working.take i ++ s :: st.working.drop i } := by
  simp [applyHook, hidx, hdup]

lemma applyHook_insertAfter {Ctx : Type} {st : ResolveState Ctx} {a : String}
    {s : Step Ctx} {i : Nat} (hidx : indexOfName a st.working = some i)
    (hdup : containsName s.name st.working = false) :
    applyHook st (.InsertAfter a s) =
      .ok { st with working := st.working.take (i + 1) ++ s :: st.working.drop (i + 1) } := by
  simp [applyHook, hidx, hdup]

lemma run_error {Ctx : Type} {base : List (Step Ctx)} {hooks : List (HookRequest Ctx)}
    {cs ss : Option String} {e : HookError} (h : resolve base hooks cs ss = .error e)
    (ctx : Ctx) :
    runTrace base hooks cs ss ctx = [] ∧ (runResult base hooks cs ss ctx).success = false := by
  simp [runTrace, runResult, run, h]

lemma run_ok_continue {Ctx : Type} {base : List (Step Ctx)}
    {hooks : List (HookRequest Ctx)} {cs ss : Option String} {w : List (Step Ctx)}
    {startI stopI : Int} (hres : resolve base hooks cs ss = .ok (w, startI, stopI))
    (hA : AlwaysContinue ((w.drop startI.toNat).take (stopI + 1 - startI).toNat))
    (ctx : Ctx) :
    runResult base hooks cs ss ctx = ⟨true, none, none⟩ ∧
      runTrace base hooks cs ss ctx =
        ((w.map (·.name)).drop startI.toNat).take (stopI + 1 - startI).toNat := by
  have hall := alwaysContinue_allContinue hA ctx
  have hs := runSlice_all hall
  constructor
  · simp [runResult, run, hres, execute, hs.1]
  · simp [runTrace, run, hres, execute, hs.2, List.map_take, List.map_drop]

lemma run_ok_continue_toNat {Ctx : Type} {base : List (Step Ctx)}
    {hooks : List (HookRequest Ctx)} {cs ss : Option String} {w : List (Step Ctx)}
    {startI stopI : Int} (a c : Nat)
    (hres : resolve base hooks cs ss = .ok (w, startI, stopI)) (hA : AlwaysContinue w)
    (ha : startI.toNat = a) (hc : (stopI + 1 - startI).toNat = c) (ctx : Ctx) :
    runResult base hooks cs ss ctx = ⟨true, none, none⟩ ∧
      runTrace base hooks cs ss ctx = ((w.map (·.name)).drop a).take c := by
  have h2 := run_ok_continue hres
    (alwaysContinue_sub (fun s hs => mem_of_drop (mem_of_take hs)) hA) ctx
  rw [ha, hc] at h2
  exact h2

lemma take_append_eq {α : Type} (u v : List α) : (u ++ v).take u.length = u := by
  induction u with
  | nil => simp
  | cons a u ih => simp [ih]

lemma drop_append_eq {α : Type} (u v : List α) : (u ++ v).drop u.length = v := by
  induction u with
  | nil => simp
  | cons a u ih => simp [ih]

lemma take_append_eq2 {α : Type} {u : List α} {n : Nat} (v : List α)
    (h : u.length = n) : (u ++ v).take n = u := by
  subst h
  exact take_append_eq u v

lemma drop_append_eq2 {α : Type} {u : List α} {n : Nat} (v : List α)
    (h : u.length = n) : (u ++ v).drop n = v := by
  subst h
  exact drop_append_eq u v

lemma drop_append_cons {α : Type} (u : List α) (s : α) (v : List α) :
    (u ++ s :: v).drop (u.length + 1) = v := by
  induction u with
  | nil => simp
  | cons a u ih => simp [ih]

lemma mkBase_always (l : List String) : AlwaysContinue (mkBase l) := by
  intro s hs c
  simp [mkBase, List.mem_map] at hs
  obtain ⟨nm, _, rfl⟩ := hs
  rfl

/-! ### The claims -/

/-- C1: for every base StepList with steps S1..Sn (n ≥ 1) and an empty hook
list, the run executes every step exactly once in list order with
`success = true` and `pausedAt = None` precisely when every step's action
returns success along the run. -/
theorem claim_C1 (Ctx : Type) (ctx : Ctx) (base : List (Step Ctx))
    (hne : 0 < base.length) :
    (runTrace base [] none none ctx = base.map (·.name)
      ∧ (runResult base [] none none ctx).success = true
      ∧ (runResult base [] none none ctx).pausedAt = none)
    ↔ allContinue ctx base = true := by
  have hres : resolve base ([] : List (HookRequest Ctx)) none none =
      .ok (base, 0, (base.length : Int) - 1) := by
    simp [resolve, applyHooks, initState, computeStart, computeStop]
    exact List.length_pos.1 hne
  have ht : ((base.length : Int) - 1 + 1 - 0).toNat = base.length := by omega
  have heval : run base ([] : List (HookRequest Ctx)) none none ctx =
      .ok (runSlice ctx base) := by
    simp [run, hres, execute, ht]
  constructor
  · rintro ⟨htr, hsucc, hpau⟩
    apply allContinue_of_slice
    · simpa [runResult, heval] using hsucc
    · simpa [runResult, heval] using hpau
  · intro hall
    have hs := runSlice_all hall
    refine ⟨?_, ?_, ?_⟩ <;> simp [runTrace, runResult, heval, hs.1, hs.2]

/-- Witness for C1 at a concrete two-step base. -/
theorem claim_C1_witness :
    0 < (mkBase ["step1", "step2"]).length ∧
      ((runTrace (mkBase ["step1", "step2"]) [] none none () =
          (mkBase ["step1", "step2"]).map (·.name)
        ∧ (runResult (mkBase ["step1", "step2"]) [] none none ()).success = true
        ∧ (runResult (mkBase ["step1", "step2"]) [] none none ()).pausedAt = none)
      ↔ allContinue () (mkBase ["step1", "step2"]) = true) :=
  ⟨by decide, claim_C1 Unit () (mkBase ["step1", "step2"]) (by decide)⟩

/-- C2 (as stated) is false at k = 1: `PauseBefore(S1)` yields stop index
`-1 < 0`, so the run fails with `EmptyRunRange` instead of succeeding with no
steps; moreover the `RunResult` of a hook-paused run is identical to that of a
run to completion, so the pause stop is not distinguishable from
run-to-completion in the result. -/
theorem claim_C2_counterexample :
    (runResult (mkBase ["s1"]) [HookRequest.PauseBefore "s1"] none none ()).success = false
    ∧ resolve (mkBase ["s1"]) [HookRequest.PauseBefore "s1"] none none =
        .error .EmptyRunRange
    ∧ runResult (mkBase ["s1", "s2"]) [HookRequest.PauseBefore "s2"] none none () =
        runResult (mkBase ["s1", "s2"]) [] none none () := by
  refine ⟨by decide, ?_, by decide⟩
  rfl

/-- C2 (amended): for `2 ≤ k ≤ n` (0-based anchor index `j ≥ 1`),
`PauseBefore(Sk)` executes exactly `S1..Sk-1` with `success = true`; for every
`1 ≤ k ≤ n`, `PauseAfter(Sk)` executes exactly `S1..Sk` with `success = true`;
for `k = 1`, `PauseBefore(S1)` instead fails with `EmptyRunRange`
(`success = false`); a pause stop is a non-error outcome
(`success = true, pausedAt = None`), distinguishable from a step failure
(`success = false`) though identical in the result to run-to-completion. -/
theorem claim_C2 (Ctx : Type) (ctx : Ctx) (base : List (Step Ctx)) (m : String)
    (j : Nat) (hA : AlwaysContinue base) (hm : indexOfName m base = some j) :
    (1 ≤ j →
      (runResult base [.PauseBefore m] none none ctx).success = true
      ∧ runTrace base [.PauseBefore m] none none ctx = (base.map (·.name)).take j)
    ∧ ((runResult base [.PauseAfter m] none none ctx).success = true
      ∧ runTrace base [.PauseAfter m] none none ctx = (base.map (·.name)).take (j + 1))
    ∧ (j = 0 →
      resolve base [.PauseBefore m] none none = .error .EmptyRunRange
      ∧ (runResult base [.PauseBefore m] none none ctx).success = false)
    ∧ runResult base [.PauseAfter m] none none ctx = ⟨true, none, none⟩ := by
  have h1 : applyHooks (initState base (none : Option String) none)
      [HookRequest.PauseBefore m] = .ok ⟨base, none, some (.before m), false, true⟩ := by
    simp [applyHooks, applyHook, initState]
  have h2 : applyHooks (initState base (none : Option String) none)
      [HookRequest.PauseAfter m] = .ok ⟨base, none, some (.after m), false, true⟩ := by
    simp [applyHooks, applyHook, initState]
  have hresA : resolve base [HookRequest.PauseAfter m] none none =
      .ok (base, 0, (j : Int)) := by
    have hcond : ¬((0 : Int) > (j : Int)) := by omega
    simp [resolve, h2, computeStart, computeStop, hm, hcond]
  have hrunA := run_ok_continue_toNat 0 (j + 1) hresA hA (by omega) (by omega) ctx
  refine ⟨?_, ⟨?_, ?_⟩, ?_, ?_⟩
  · intro h1j
    have hresB : resolve base [HookRequest.PauseBefore m] none none =
        .ok (base, 0, (j : Int) - 1) := by
      have hcond : ¬((0 : Int) > (j : Int) - 1) := by omega
      simp [resolve, h1, computeStart, computeStop, hm, hcond]
    have hrunB := run_ok_continue_toNat 0 j hresB hA (by omega) (by omega) ctx
    refine ⟨by simp [hrunB.1], ?_⟩
    rw [hrunB.2, List.drop_zero]
  · simp [hrunA.1]
  · rw [hrunA.2, List.drop_zero]
  · intro h0
    subst h0
    have hresB : resolve base [HookRequest.PauseBefore m] none none =
        .error .EmptyRunRange := by
      have hcond : ((0 : Int) > (0 : Int) - 1) := by omega
      simp [resolve, h1, computeStart, computeStop, hm, hcond]
    exact ⟨hresB, (run_error hresB ctx).2⟩
  · exact hrunA.1

/-- C3: `ResumeBefore(Sk)` skips exactly `S1..Sk-1` (execution starts at `Sk`
and the skipped steps' actions are never invoked, the trace being exactly the
names from `Sk` on); `ResumeAfter(Sk)` also skips `Sk`; and when `Sk+1` exists,
`ResumeAfter(Sk)` and `ResumeBefore(Sk+1)` resolve identically (same start
index). -/
theorem claim_C3 (Ctx : Type) (ctx : Ctx) (base : List (Step Ctx)) (m : String)
    (j : Nat) (hA : AlwaysContinue base) (hm : indexOfName m base = some j) :
    (runTrace base [.ResumeBefore m] none none ctx = (base.map (·.name)).drop j
      ∧ (runResult base [.ResumeBefore m] none none ctx).success = true)
    ∧ runTrace base [.ResumeAfter m] none none ctx = (base.map (·.name)).drop (j + 1)
    ∧ (∀ m2, indexOfName m2 base = some (j + 1) →
        resolve base [.ResumeAfter m] none none =
          resolve base [.ResumeBefore m2] none none) := by
  have hj := indexOfName_lt hm
  have h1 : applyHooks (initState base (none : Option String) none)
      [HookRequest.ResumeBefore m] = .ok ⟨base, some (.before m), none, true, false⟩ := by
    simp [applyHooks, applyHook, initState]
  have h2 : applyHooks (initState base (none : Option String) none)
      [HookRequest.ResumeAfter m] = .ok ⟨base, some (.after m), none, true, false⟩ := by
    simp [applyHooks, applyHook, initState]
  have hresB : resolve base [HookRequest.ResumeBefore m] none none =
      .ok (base, (j : Int), (base.length : Int) - 1) := by
    have hcond : ¬((j : Int) > (base.length : Int) - 1) := by omega
    simp [resolve, h1, computeStart, computeStop, hm, hcond]
  have hrunB := run_ok_continue_toNat j (base.length - j) hresB hA (by omega)
    (by omega) ctx
  refine ⟨⟨?_, by simp [hrunB.1]⟩, ?_, ?_⟩
  · rw [hrunB.2]
    apply List.take_of_length_le
    simp
  · by_cases hcase : j + 1 < base.length
    · have hcond : ¬((j : Int) + 1 > (base.length : Int) - 1) := by omega
      have hresA : resolve base [HookRequest.ResumeAfter m] none none =
          .ok (base, (j : Int) + 1, (base.length : Int) - 1) := by
        simp [resolve, h2, computeStart, computeStop, hm, hcond]
      have hrunA := run_ok_continue_toNat (j + 1) (base.length - (j + 1)) hresA hA
        (by omega) (by omega) ctx
      rw [hrunA.2]
      apply List.take_of_length_le
      simp
    · have hcond : ((j : Int) + 1 > (base.length : Int) - 1) := by omega
      have hresA : resolve base [HookRequest.ResumeAfter m] none none =
          .error .EmptyRunRange := by
        simp [resolve, h2, computeStart, computeStop, hm, hcond]
      rw [(run_error hresA ctx).1]
      rw [List.drop_eq_nil_of_le (by simp; omega)]
  · intro m2 hm2
    have hj2 := indexOfName_lt hm2
    have hcond : ¬((j : Int) + 1 > (base.length : Int) - 1) := by omega
    have hA1 : resolve base [HookRequest.ResumeAfter m] none none =
        .ok (base, (j : Int) + 1, (base.length : Int) - 1) := by
      simp [resolve, h2, computeStart, computeStop, hm, hcond]
    have h3 : applyHooks (initState base (none : Option String) none)
        [HookRequest.ResumeBefore m2] =
        .ok ⟨base, some (.before m2), none, true, false⟩ := by
      simp [applyHooks, applyHook, initState]
    have hcond2 : ¬(((j + 1 : Nat) : Int) > (base.length : Int) - 1) := by omega
    have hB1 : resolve base [HookRequest.ResumeBefore m2] none none =
        .ok (base, ((j + 1 : Nat) : Int), (base.length : Int) - 1) := by
      simp [resolve, h3, computeStart, computeStop, hm2, hcond2]
      omega
    rw [hA1, hB1]
    norm_num

/-- Witness for C2 (amended) at the anchor "step2" of a three-step base. -/
theorem claim_C2_witness :
    AlwaysContinue base3 ∧ indexOfName "step2" base3 = some 1 ∧
    ((1 ≤ 1 →
      (runResult base3 [.PauseBefore "step2"] none none ()).success = true
      ∧ runTrace base3 [.PauseBefore "step2"] none none () = (base3.map (·.name)).take 1)
    ∧ ((runResult base3 [.PauseAfter "step2"] none none ()).success = true
      ∧ runTrace base3 [.PauseAfter "step2"] none none () = (base3.map (·.name)).take 2)
    ∧ (1 = 0 →
      resolve base3 [.PauseBefore "step2"] none none = .error .EmptyRunRange
      ∧ (runResult base3 [.PauseBefore "step2"] none none ()).success = false)
    ∧ runResult base3 [.PauseAfter "step2"] none none () = ⟨true, none, none⟩) :=
  ⟨mkBase_always _, rfl, claim_C2 Unit () base3 "step2" 1 (mkBase_always _) rfl⟩

/-- Witness for C3 at the anchor "step2" of a three-step base. -/
theorem claim_C3_witness :
    AlwaysContinue base3 ∧ indexOfName "step2" base3 = some 1 ∧
    ((runTrace base3 [.ResumeBefore "step2"] none none () = (base3.map (·.name)).drop 1
      ∧ (runResult base3 [.ResumeBefore "step2"] none none ()).success = true)
    ∧ runTrace base3 [.ResumeAfter "step2"] none none () = (base3.map (·.name)).drop 2
    ∧ (∀ m2, indexOfName m2 base3 = some 2 →
        resolve base3 [.ResumeAfter "step2"] none none =
          resolve base3 [.ResumeBefore m2] none none)) :=
  ⟨mkBase_always _, rfl, claim_C3 Unit () base3 "step2" 1 (mkBase_always _) rfl⟩

/-- C4: a hook list containing both a `PauseBefore` and a `PauseAfter` always
fails resolution, with `success = false` and no step action invoked; and when
the hooks before the second pause request apply cleanly, the reported error is
precisely `ConflictingPauseHook`. -/
theorem claim_C4 (Ctx : Type) (base : List (Step Ctx)) (hooks : List (HookRequest Ctx))
    (cs ss : Option String) (a b : String)
    (ha : HookRequest.PauseBefore a ∈ hooks) (hb : HookRequest.PauseAfter b ∈ hooks) :
    ((∃ e, resolve base hooks cs ss = .error e)
      ∧ ∀ ctx, runTrace base hooks cs ss ctx = []
          ∧ (runResult base hooks cs ss ctx).success = false)
    ∧ (∀ (l1 l2 : List (HookRequest Ctx)) (q : HookRequest Ctx) (st : ResolveState Ctx),
        hooks = l1 ++ q :: l2 → isPauseHook q = true →
        (∃ p ∈ l1, isPauseHook p = true) →
        applyHooks (initState base cs ss) l1 = .ok st →
        resolve base hooks cs ss = .error .ConflictingPauseHook) := by
  constructor
  · obtain ⟨e, he⟩ := @two_pause_mem_error Ctx (initState base cs ss) hooks a b ha hb
    have herr : resolve base hooks cs ss = .error e := by simp [resolve, he]
    exact ⟨⟨e, herr⟩, fun ctx => ⟨(run_error herr ctx).1, (run_error herr ctx).2⟩⟩
  · intro l1 l2 q st heq hq hp hok
    obtain ⟨p, hpmem, hpp⟩ := hp
    have hseen : st.pauseSeen = true := applyHooks_pauseSeen_of_mem hok hpmem hpp
    have happ : applyHooks (initState base cs ss) hooks = .error .ConflictingPauseHook := by
      rw [heq, applyHooks_append, hok]
      show applyHooks st (q :: l2) = _
      simp [applyHooks, applyHook_pause_conflict hq hseen]
    simp [resolve, happ]

/-- Witness for C4: the `test_extra_pause_hooks` scenario. -/
theorem claim_C4_witness :
    HookRequest.PauseBefore "step3" ∈ pauseHooks ∧
    HookRequest.PauseAfter "step3" ∈ pauseHooks ∧
    (((∃ e, resolve base4 pauseHooks none none = .error e)
      ∧ ∀ ctx, runTrace base4 pauseHooks none none ctx = []
          ∧ (runResult base4 pauseHooks none none ctx).success = false)
    ∧ (∀ (l1 l2 : List (HookRequest Unit)) (q : HookRequest Unit) (st : ResolveState Unit),
        pauseHooks = l1 ++ q :: l2 → isPauseHook q = true →
        (∃ p ∈ l1, isPauseHook p = true) →
        applyHooks (initState base4 none none) l1 = .ok st →
        resolve base4 pauseHooks none none = .error .ConflictingPauseHook)) :=
  ⟨List.mem_cons_self _ _, List.mem_cons_of_mem _ (List.mem_cons_self _ _),
    claim_C4 Unit base4 pauseHooks none none "step3" "step3"
      (List.mem_cons_self _ _) (List.mem_cons_of_mem _ (List.mem_cons_self _ _))⟩

/-- C5: when resolution reaches a structural hook (removal, insertion or
replacement) whose target or anchor name is absent from the working list at
that moment, the run fails with `StepNotFound` for that name, reports
`success = false`, and invokes no step action. -/
theorem claim_C5 (Ctx : Type) (base : List (Step Ctx))
    (hooks l1 l2 : List (HookRequest Ctx)) (h : HookRequest Ctx)
    (cs ss : Option String) (st : ResolveState Ctx) (m : String)
    (heq : hooks = l1 ++ h :: l2)
    (hok : applyHooks (initState base cs ss) l1 = .ok st)
    (href : structuralRef h = some m)
    (habs : containsName m st.working = false) :
    resolve base hooks cs ss = .error (.StepNotFound m)
    ∧ ∀ ctx, runTrace base hooks cs ss ctx = []
        ∧ (runResult base hooks cs ss ctx).success = false := by
  have happ : applyHooks (initState base cs ss) hooks = .error (.StepNotFound m) := by
    rw [heq, applyHooks_append, hok]
    show applyHooks st (h :: l2) = _
    simp [applyHooks, applyHook_structural_absent href habs]
  have hres : resolve base hooks cs ss = .error (.StepNotFound m) := by
    simp [resolve, happ]
  exact ⟨hres, fun ctx => ⟨(run_error hres ctx).1, (run_error hres ctx).2⟩⟩

/-- Witness for C5: the `test_bad_hooks` scenario, removing a name that never
existed. -/
theorem claim_C5_witness :
    ([HookRequest.Remove "does_not_exist"] : List (HookRequest Unit)) =
        [] ++ HookRequest.Remove "does_not_exist" :: [] ∧
    applyHooks (initState base4 none none) [] = .ok (initState base4 none none) ∧
    structuralRef (HookRequest.Remove "does_not_exist" : HookRequest Unit) =
        some "does_not_exist" ∧
    containsName "does_not_exist" (initState base4 none none).working = false ∧
    (resolve base4 [HookRequest.Remove "does_not_exist"] none none =
        .error (.StepNotFound "does_not_exist")
      ∧ ∀ ctx, runTrace base4 [HookRequest.Remove "does_not_exist"] none none ctx = []
          ∧ (runResult base4 [HookRequest.Remove "does_not_exist"] none none ctx).success
              = false) :=
  ⟨rfl, rfl, rfl, by decide,
    claim_C5 Unit base4 [HookRequest.Remove "does_not_exist"] [] []
      (HookRequest.Remove "does_not_exist") none none (initState base4 none none)
      "does_not_exist" rfl rfl rfl (by decide)⟩

/-- C7: removing a step present in the base list never invokes that step's
action, and the remaining steps still execute in their original relative
order (the trace is exactly the base name list with the removed name cut
out). -/
theorem claim_C7 (Ctx : Type) (ctx : Ctx) (base : List (Step Ctx)) (t : String)
    (i : Nat) (hA : AlwaysContinue base) (hnd : (base.map (·.name)).Nodup)
    (hm : indexOfName t base = some i) :
    runTrace base [.Remove t] none none ctx =
      (base.map (·.name)).take i ++ (base.map (·.name)).drop (i + 1)
    ∧ t ∉ runTrace base [.Remove t] none none ctx := by
  obtain ⟨u, s, v, rfl, hlen, hname, hfresh⟩ := indexOfName_decomp hm
  subst hlen
  subst hname
  have h1 : applyHooks (initState (u ++ s :: v) (none : Option String) none)
      [HookRequest.Remove s.name] = .ok ⟨u ++ v, none, none, false, false⟩ := by
    have hidx : indexOfName s.name (u ++ s :: v) = some u.length :=
      indexOfName_append_cons u s v rfl hfresh
    simp [applyHooks, applyHook, initState, hidx, take_append_eq2 (s :: v) rfl,
      drop_append_cons]
  have hmap : ((u ++ s :: v).map (·.name)) =
      u.map (·.name) ++ s.name :: v.map (·.name) := by simp
  have htake : ((u ++ s :: v).map (·.name)).take u.length = u.map (·.name) := by
    rw [hmap]
    exact take_append_eq2 _ (by simp)
  have hdrop : ((u ++ s :: v).map (·.name)).drop (u.length + 1) = v.map (·.name) := by
    have hd := drop_append_cons (u.map (·.name)) s.name (v.map (·.name))
    rw [List.length_map] at hd
    rw [hmap]
    exact hd
  have key : runTrace (u ++ s :: v) [HookRequest.Remove s.name] none none ctx
      = u.map (·.name) ++ v.map (·.name) := by
    by_cases hwe : u ++ v = []
    · have hlen0 : u.length + v.length = 0 := by
        simpa [List.length_append] using congrArg List.length hwe
      have hcond : ((0 : Int) > ((u ++ v).length : Int) - 1) := by
        simp [List.length_append]
        omega
      have hres : resolve (u ++ s :: v) [HookRequest.Remove s.name] none none
          = .error .EmptyRunRange := by
        simp [resolve, h1, computeStart, computeStop, hcond]
        omega
      rw [(run_error hres ctx).1, ← List.map_append]
      simp [hwe]
    · have hlp : 0 < u.length + v.length := by
        simpa [List.length_append] using List.length_pos.2 hwe
      have hres : resolve (u ++ s :: v) [HookRequest.Remove s.name] none none
          = .ok (u ++ v, 0, ((u ++ v).length : Int) - 1) := by
        have hcond : ¬((0 : Int) > ((u ++ v).length : Int) - 1) := by
          simp [List.length_append]
          omega
        simp [resolve, h1, computeStart, computeStop, hcond]
        omega
      have hA2 : AlwaysContinue (u ++ v) := by
        intro x hx c
        rcases List.mem_append.1 hx with hx2 | hx2
        · exact hA x (List.mem_append_left _ hx2) c
        · exact hA x (List.mem_append_right _ (List.mem_cons_of_mem _ hx2)) c
      have hrun := run_ok_continue_toNat 0 ((u ++ v).length) hres hA2 (by omega)
        (by omega) ctx
      rw [hrun.2, List.drop_zero, List.take_of_length_le (by simp), List.map_append]
  constructor
  · rw [key, htake, hdrop]
  · rw [key]
    intro hmem
    rw [hmap, List.nodup_append] at hnd
    obtain ⟨-, hnd2, -⟩ := hnd
    rw [List.nodup_cons] at hnd2
    rcases List.mem_append.1 hmem with hmem2 | hmem2
    · obtain ⟨x, hxmem, hxeq⟩ := List.mem_map.1 hmem2
      exact hfresh x hxmem hxeq
    · exact hnd2.1 hmem2

/-- Witness for C7: removing "step2" from the four-step base. -/
theorem claim_C7_witness :
    AlwaysContinue base4 ∧ (base4.map (·.name)).Nodup ∧
    indexOfName "step2" base4 = some 1 ∧
    (runTrace base4 [.Remove "step2"] none none () =
      (base4.map (·.name)).take 1 ++ (base4.map (·.name)).drop 2
    ∧ "step2" ∉ runTrace base4 [.Remove "step2"] none none ()) :=
  ⟨mkBase_always _, by decide, rfl,
    claim_C7 Unit () base4 "step2" 1 (mkBase_always _) (by decide) rfl⟩

/-- C6: a later hook may anchor on a step name introduced by an earlier hook
of the same invocation, and the result is incremental: inserting X before an
anchor and then Y before X makes Y run immediately before X, which runs at
the position X's own insertion determined (immediately before the anchor). -/
theorem claim_C6 (Ctx : Type) (ctx : Ctx) (base : List (Step Ctx)) (a : String)
    (i : Nat) (X Y : Step Ctx) (hA : AlwaysContinue base)
    (hm : indexOfName a base = some i)
    (hX : containsName X.name base = false) (hY : containsName Y.name base = false)
    (hYX : Y.name ≠ X.name)
    (hXc : ∀ c, (X.action c).1 = StepResult.Continue)
    (hYc : ∀ c, (Y.action c).1 = StepResult.Continue) :
    runResult base [.InsertBefore a X, .InsertBefore X.name Y] none none ctx
        = ⟨true, none, none⟩
    ∧ runTrace base [.InsertBefore a X, .InsertBefore X.name Y] none none ctx
        = (base.map (·.name)).take i ++ Y.name :: X.name :: (base.map (·.name)).drop i := by
  have hi := indexOfName_lt hm
  have hXl : ∀ x ∈ base, x.name ≠ X.name := (containsName_false_iff _ _).1 hX
  have hYl : ∀ x ∈ base, x.name ≠ Y.name := (containsName_false_iff _ _).1 hY
  have hlenTake : (base.take i).length = i := by
    rw [List.length_take]
    omega
  have hidx1 : indexOfName X.name (base.take i ++ X :: base.drop i) = some i := by
    have h2 := indexOfName_append_cons (base.take i) X (base.drop i) rfl
      (fun x hx => hXl x (mem_of_take hx))
    rwa [hlenTake] at h2
  have hdup1 : containsName Y.name (base.take i ++ X :: base.drop i) = false := by
    rw [containsName_false_iff]
    intro x hx
    rcases List.mem_append.1 hx with h2 | h2
    · exact hYl x (mem_of_take h2)
    · rcases List.mem_cons.1 h2 with rfl | h3
      · exact fun he => hYX he.symm
      · exact hYl x (mem_of_drop h3)
  have e1 : applyHook (initState base (none : Option String) none)
      (HookRequest.InsertBefore a X)
      = .ok ⟨base.take i ++ X :: base.drop i, none, none, false, false⟩ := by
    simp [applyHook, initState, hm, hX]
  have e2 : applyHook
      (⟨base.take i ++ X :: base.drop i, none, none, false, false⟩ : ResolveState Ctx)
      (HookRequest.InsertBefore X.name Y)
      = .ok ⟨base.take i ++ Y :: X :: base.drop i, none, none, false, false⟩ := by
    simp [applyHook, hidx1, hdup1, take_append_eq2 (X :: base.drop i) hlenTake,
      drop_append_eq2 (X :: base.drop i) hlenTake]
  have happ : applyHooks (initState base (none : Option String) none)
      [HookRequest.InsertBefore a X, HookRequest.InsertBefore X.name Y]
      = .ok ⟨base.take i ++ Y :: X :: base.drop i, none, none, false, false⟩ := by
    simp [applyHooks, e1, e2]
  have hw2len : (base.take i ++ Y :: X :: base.drop i).length = base.length + 2 := by
    simp [List.length_append, List.length_take, List.length_drop]
    omega
  have hres : resolve base [HookRequest.InsertBefore a X, HookRequest.InsertBefore X.name Y]
      none none
      = .ok (base.take i ++ Y :: X :: base.drop i, 0,
          ((base.take i ++ Y :: X :: base.drop i).length : Int) - 1) := by
    have hcond : ¬((0 : Int) > ((base.take i ++ Y :: X :: base.drop i).length : Int) - 1) := by
      rw [hw2len]
      omega
    simp [resolve, happ, computeStart, computeStop, hcond]
    omega
  have hA2 : AlwaysContinue (base.take i ++ Y :: X :: base.drop i) := by
    intro x hx c
    rcases List.mem_append.1 hx with h2 | h2
    · exact hA x (mem_of_take h2) c
    · rcases List.mem_cons.1 h2 with rfl | h3
      · exact hYc c
      · rcases List.mem_cons.1 h3 with rfl | h4
        · exact hXc c
        · exact hA x (mem_of_drop h4) c
  have hrun := run_ok_continue_toNat 0 ((base.take i ++ Y :: X :: base.drop i).length)
    hres hA2 (by omega) (by omega) ctx
  refine ⟨hrun.1, ?_⟩
  rw [hrun.2, List.drop_zero, List.take_of_length_le (by simp)]
  simp

/-- Witness for C6: insert X before "step2", then Y before "X". -/
theorem claim_C6_witness :
    AlwaysContinue base4 ∧ indexOfName "step2" base4 = some 1 ∧
    containsName "X" base4 = false ∧ containsName "Y" base4 = false ∧
    ("Y" ≠ "X") ∧
    (runResult base4 [.InsertBefore "step2" (contStep "X"),
        .InsertBefore "X" (contStep "Y")] none none () = ⟨true, none, none⟩
    ∧ runTrace base4 [.InsertBefore "step2" (contStep "X"),
        .InsertBefore "X" (contStep "Y")] none none ()
        = (base4.map (·.name)).take 1 ++ "Y" :: "X" :: (base4.map (·.name)).drop 1) :=
  ⟨mkBase_always _, rfl, by decide, by decide, by decide,
    claim_C6 Unit () base4 "step2" 1 (contStep "X") (contStep "Y") (mkBase_always _)
      rfl (by decide) (by decide) (by decide) (fun c => rfl) (fun c => rfl)⟩

/-- C10: a step inserted by an insertion hook built from a callable is named
after the callable's function name, so a later hook of the same invocation can
anchor on that name: after `make_post_insertion_hook(anchor, f)`,
`make_pre_insertion_hook(f.funcName, g)` resolves, and g runs immediately
before f, which runs immediately after the anchor. -/
theorem claim_C10 (Ctx : Type) (ctx : Ctx) (base : List (Step Ctx)) (a : String)
    (i : Nat) (f g : Callable Ctx) (hA : AlwaysContinue base)
    (hm : indexOfName a base = some i)
    (hf : containsName f.funcName base = false)
    (hg : containsName g.funcName base = false)
    (hgf : g.funcName ≠ f.funcName)
    (hfc : ∀ c, (f.call c).1 = StepResult.Continue)
    (hgc : ∀ c, (g.call c).1 = StepResult.Continue) :
    runResult base [make_post_insertion_hook a f,
        make_pre_insertion_hook f.funcName g] none none ctx = ⟨true, none, none⟩
    ∧ runTrace base [make_post_insertion_hook a f,
        make_pre_insertion_hook f.funcName g] none none ctx
        = (base.map (·.name)).take (i + 1)
            ++ g.funcName :: f.funcName :: (base.map (·.name)).drop (i + 1) := by
  have hi := indexOfName_lt hm
  have hfl : ∀ x ∈ base, x.name ≠ f.funcName := (containsName_false_iff _ _).1 hf
  have hgl : ∀ x ∈ base, x.name ≠ g.funcName := (containsName_false_iff _ _).1 hg
  have hlenTake : (base.take (i + 1)).length = i + 1 := by
    rw [List.length_take]
    omega
  have hidx1 : indexOfName f.funcName
      (base.take (i + 1) ++ (⟨f.funcName, f.call⟩ : Step Ctx) :: base.drop (i + 1))
      = some (i + 1) := by
    have h2 := indexOfName_append_cons (base.take (i + 1)) ⟨f.funcName, f.call⟩
      (base.drop (i + 1)) rfl (fun x hx => hfl x (mem_of_take hx))
    rwa [hlenTake] at h2
  have hdup1 : containsName g.funcName
      (base.take (i + 1) ++ (⟨f.funcName, f.call⟩ : Step Ctx) :: base.drop (i + 1))
      = false := by
    rw [containsName_false_iff]
    intro x hx
    rcases List.mem_append.1 hx with h2 | h2
    · exact hgl x (mem_of_take h2)
    · rcases List.mem_cons.1 h2 with rfl | h3
      · exact fun he => hgf he.symm
      · exact hgl x (mem_of_drop h3)
  have e1 : applyHook (initState base (none : Option String) none)
      (HookRequest.InsertAfter a (⟨f.funcName, f.call⟩ : Step Ctx))
      = .ok ⟨base.take (i + 1) ++ (⟨f.funcName, f.call⟩ : Step Ctx) :: base.drop (i + 1),
          none, none, false, false⟩ := by
    simp [applyHook, initState, hm, hf]
  have e2 : applyHook
      (⟨base.take (i + 1) ++ (⟨f.funcName, f.call⟩ : Step Ctx) :: base.drop (i + 1),
        none, none, false, false⟩ : ResolveState Ctx)
      (HookRequest.InsertBefore f.funcName (⟨g.funcName, g.call⟩ : Step Ctx))
      = .ok ⟨base.take (i + 1) ++ (⟨g.funcName, g.call⟩ : Step Ctx)
            :: (⟨f.funcName, f.call⟩ : Step Ctx) :: base.drop (i + 1),
          none, none, false, false⟩ := by
    simp [applyHook, hidx1, hdup1,
      take_append_eq2 ((⟨f.funcName, f.call⟩ : Step Ctx) :: base.drop (i + 1)) hlenTake,
      drop_append_eq2 ((⟨f.funcName, f.call⟩ : Step Ctx) :: base.drop (i + 1)) hlenTake]
  have happ : applyHooks (initState base (none : Option String) none)
      [make_post_insertion_hook a f, make_pre_insertion_hook f.funcName g]
      = .ok ⟨base.take (i + 1) ++ (⟨g.funcName, g.call⟩ : Step Ctx)
            :: (⟨f.funcName, f.call⟩ : Step Ctx) :: base.drop (i + 1),
          none, none, false, false⟩ := by
    simp [applyHooks, make_post_insertion_hook, make_pre_insertion_hook, e1, e2]
  have hw2len : (base.take (i + 1) ++ (⟨g.funcName, g.call⟩ : Step Ctx)
      :: (⟨f.funcName, f.call⟩ : Step Ctx) :: base.drop (i + 1)).length
      = base.length + 2 := by
    simp [List.length_append, List.length_take, List.length_drop]
    omega
  have hres : resolve base [make_post_insertion_hook a f,
      make_pre_insertion_hook f.funcName g] none none
      = .ok (base.take (i + 1) ++ (⟨g.funcName, g.call⟩ : Step Ctx)
            :: (⟨f.funcName, f.call⟩ : Step Ctx) :: base.drop (i + 1), 0,
          ((base.take (i + 1) ++ (⟨g.funcName, g.call⟩ : Step Ctx)
            :: (⟨f.funcName, f.call⟩ : Step Ctx) :: base.drop (i + 1)).length : Int) - 1) := by
    have hcond : ¬((0 : Int) > ((base.take (i + 1) ++ (⟨g.funcName, g.call⟩ : Step Ctx)
        :: (⟨f.funcName, f.call⟩ : Step Ctx) :: base.drop (i + 1)).length : Int) - 1) := by
      rw [hw2len]
      omega
    simp [resolve, happ, computeStart, computeStop, hcond]
    omega
  have hA2 : AlwaysContinue (base.take (i + 1) ++ (⟨g.funcName, g.call⟩ : Step Ctx)
      :: (⟨f.funcName, f.call⟩ : Step Ctx) :: base.drop (i + 1)) := by
    intro x hx c
    rcases List.mem_append.1 hx with h2 | h2
    · exact hA x (mem_of_take h2) c
    · rcases List.mem_cons.1 h2 with rfl | h3
      · exact hgc c
      · rcases List.mem_cons.1 h3 with rfl | h4
        · exact hfc c
        · exact hA x (mem_of_drop h4) c
  have hrun := run_ok_continue_toNat 0
    ((base.take (i + 1) ++ (⟨g.funcName, g.call⟩ : Step Ctx)
      :: (⟨f.funcName, f.call⟩ : Step Ctx) :: base.drop (i + 1)).length)
    hres hA2 (by omega) (by omega) ctx
  refine ⟨hrun.1, ?_⟩
  rw [hrun.2, List.drop_zero, List.take_of_length_le (by simp)]
  simp

/-- Witness for C10: the `test_insertion_hooks` scenario — insert callable
"change3" after "step3", then callable "change4" before "change3". -/
theorem claim_C10_witness :
    AlwaysContinue base4 ∧ indexOfName "step3" base4 = some 2 ∧
    containsName "change3" base4 = false ∧ containsName "change4" base4 = false ∧
    ("change4" ≠ "change3") ∧
    (runResult base4 [make_post_insertion_hook "step3" (contCall "change3"),
        make_pre_insertion_hook "change3" (contCall "change4")] none none ()
        = ⟨true, none, none⟩
    ∧ runTrace base4 [make_post_insertion_hook "step3" (contCall "change3"),
        make_pre_insertion_hook "change3" (contCall "change4")] none none ()
        = (base4.map (·.name)).take 3
            ++ "change4" :: "change3" :: (base4.map (·.name)).drop 3) :=
  ⟨mkBase_always _, rfl, by decide, by decide, by decide,
    claim_C10 Unit () base4 "step3" 2 (contCall "change3") (contCall "change4")
      (mkBase_always _) rfl (by decide) (by decide) (by decide)
      (fun c => rfl) (fun c => rfl)⟩

/-- C8: when the hook list has no Resume- or Pause-type hook, the carried
start/stop names (set via the `fromTo` mutator) bound the run to exactly the
steps from the carried start through the carried stop, and a carried bound
name may denote a step only inserted by a hook of this same invocation (the
carried anchors are validated against the post-hook working list). -/
theorem claim_C8 (Ctx : Type) (ctx : Ctx) (base : List (Step Ctx))
    (hooks : List (HookRequest Ctx)) (cs ssN : String) (st : ResolveState Ctx)
    (i j : Nat)
    (hnb : ∀ h ∈ hooks, isBoundHook h = false)
    (hok : applyHooks (initState base (some cs) (some ssN)) hooks = .ok st)
    (hi : indexOfName cs st.working = some i)
    (hj : indexOfName ssN st.working = some j)
    (hij : i ≤ j)
    (hA : AlwaysContinue st.working) :
    (runResult base hooks (some cs) (some ssN) ctx).success = true
    ∧ runTrace base hooks (some cs) (some ssN) ctx
        = ((st.working.map (·.name)).drop i).take (j + 1 - i) := by
  have hbp := applyHooks_bounds_preserved hok hnb
  have hsb : st.startB = some (.before cs) := by
    rw [hbp.1]
    simp [initState]
  have hpb : st.stopB = some (.after ssN) := by
    rw [hbp.2]
    simp [initState]
  have hres : resolve base hooks (some cs) (some ssN) =
      .ok (st.working, (i : Int), (j : Int)) := by
    have hcond : ¬((i : Int) > (j : Int)) := by omega
    simp [resolve, hok, hsb, hpb, computeStart, computeStop, hi, hj, hcond]
  have hrun := run_ok_continue_toNat i (j + 1 - i) hres hA (by omega) (by omega) ctx
  exact ⟨by simp [hrun.1], hrun.2⟩

/-- Witness for C8: the `test_resume_pause_hooks_with_custom_steps` scenario —
carried bounds "step5".."step5" select exactly the step this invocation's
insertion hook added. -/
theorem claim_C8_witness :
    (∀ h ∈ ([.InsertAfter "step4" (contStep "step5")] : List (HookRequest Unit)),
      isBoundHook h = false) ∧
    applyHooks (initState base4 (some "step5") (some "step5"))
      [.InsertAfter "step4" (contStep "step5")] = .ok base5work ∧
    indexOfName "step5" base5work.working = some 4 ∧
    (4 : Nat) ≤ 4 ∧
    AlwaysContinue base5work.working ∧
    ((runResult base4 [.InsertAfter "step4" (contStep "step5")]
        (some "step5") (some "step5") ()).success = true
    ∧ runTrace base4 [.InsertAfter "step4" (contStep "step5")]
        (some "step5") (some "step5") ()
        = ((base5work.working.map (·.name)).drop 4).take (4 + 1 - 4)) := by
  have hnb : ∀ h ∈ ([.InsertAfter "step4" (contStep "step5")] : List (HookRequest Unit)),
      isBoundHook h = false := by
    intro h hh
    rcases List.mem_singleton.1 hh with rfl
    rfl
  exact ⟨hnb, rfl, rfl, by omega, mkBase_always _,
    claim_C8 Unit () base4 [.InsertAfter "step4" (contStep "step5")] "step5" "step5"
      base5work 4 4 hnb rfl rfl rfl (by omega) (mkBase_always _)⟩

/-- C9: whenever the computed start index lands strictly after the computed
stop index once all hooks are applied, resolution fails with `EmptyRunRange`
and no step executes; in particular an empty resolved step list (default stop
index `len - 1 = -1`, default start index `0`) fails this way. -/
theorem claim_C9 (Ctx : Type) :
    (∀ (base : List (Step Ctx)) (hooks : List (HookRequest Ctx)) (cs ss : Option String)
      (st : ResolveState Ctx) (startI stopI : Int) (ctx : Ctx),
      applyHooks (initState base cs ss) hooks = .ok st →
      computeStart st.working st.startB = .ok startI →
      computeStop st.working st.stopB = .ok stopI →
      stopI < startI →
      resolve base hooks cs ss = .error .EmptyRunRange
        ∧ runTrace base hooks cs ss ctx = []
        ∧ (runResult base hooks cs ss ctx).success = false)
    ∧ resolve ([] : List (Step Ctx)) ([] : List (HookRequest Ctx)) none none =
        .error .EmptyRunRange := by
  constructor
  · intro base hooks cs ss st startI stopI ctx hst hstart hstop hlt
    have hres : resolve base hooks cs ss = .error .EmptyRunRange := by
      simp [resolve, hst, hstart, hstop, hlt]
    exact ⟨hres, (run_error hres ctx).1, (run_error hres ctx).2⟩
  · rfl

/-- Witness for C9: removing the only step leaves an empty working list. -/
theorem claim_C9_witness :
    resolve (mkBase ["s1"]) [HookRequest.Remove "s1"] none none = .error .EmptyRunRange
      ∧ runTrace (mkBase ["s1"]) [HookRequest.Remove "s1"] none none () = []
      ∧ (runResult (mkBase ["s1"]) [HookRequest.Remove "s1"] none none ()).success = false :=
  (claim_C9 Unit).1 (mkBase ["s1"]) [HookRequest.Remove "s1"] none none
    ⟨[], none, none, false, false⟩ 0 (-1) () rfl rfl (by simp [computeStop]) (by decide)

end Hammer
